import Mathlib

set_option autoImplicit false

/-!
# Verification of the EWC trainers in `begin/algorithms/ewc/graphs.py`

Shallow embedding of the Elastic Weight Consolidation (EWC) trainers for
continual graph classification (`GCTaskILEWCTrainer`, `GCClassILEWCTrainer`,
`GCDomainILEWCTrainer`, `GCTimeILEWCTrainer`).

Modelling conventions:
* A tensor is flattened to a `List ℚ`; exact rational arithmetic models the
  exact real arithmetic that the floating-point code approximates.  The one
  place where float special values matter (division of the Fisher
  accumulators by `total_num_items` when that count is zero) is modelled
  separately and faithfully by `floatDivByCount`, which produces `FElem.nan`
  or signed infinities exactly as IEEE-754 division would.
* A Python dict keyed by parameter names (built from
  `curr_model.named_parameters()`) is an association list
  `List (String × Tensor)` in the iteration order of `named_parameters()`.
* The collaborators declared external by the module (the base `GCTrainer`,
  `prepareLoader`, the model forward pass, `loss.backward()`, `eval_fn`) are
  abstracted as inputs: a `BatchEffect` records the observable outcome of one
  loop iteration of the Fisher pass (the parameter data, the gradients — with
  `none` for a parameter whose `.grad` is `None` — and the batch's label
  count `labels.shape[0]`), mirroring lines 88-96 of the source.
* `training_states` is threaded explicitly: every embedded event function
  takes the state and returns the (possibly) updated state, so that frame
  properties of the mutating Python code are visible in the types.
-/

namespace BeGin

/-- A flattened parameter tensor: the multiset of its scalar elements in
row-major order.  All elementwise tensor operations of the source act
positionally on this list. -/
abbrev Tensor := List ℚ

/-- A Python dict from parameter name to tensor, as built from
`curr_model.named_parameters()`: an association list in iteration order. -/
abbrev TensorDict := List (String × Tensor)

/-- Dict lookup `d[name]`.  Every dict the source builds contains exactly the
model's parameter names, so the `[]` default is never reached on the source's
own accesses. -/
def TensorDict.get (d : TensorDict) (n : String) : Tensor :=
  (List.lookup n d).getD []

/-- The result of `model.named_parameters()`: names with current parameter
tensors, in iteration order. -/
abbrev NamedParams := List (String × Tensor)

/-- The EWC training-state record created by `initTrainingStates`
(line 67): `{'fishers': [...], 'params': [...]}`, one entry of each per
completed task. -/
structure TrainingStates where
  fishers : List TensorDict
  params : List TensorDict
deriving DecidableEq, Repr

/-- The observable effect of one iteration of the Fisher-estimation loop
(lines 89-92): after `curr_model.zero_grad()`, `self.inference(...)` and
`curr_results['loss'].backward()`, each named parameter `name` holds data
`pdata name` and gradient `grad name` (`none` when `p.grad is None`), and
the batch's label tensor has first-dimension size `numItems`
(`_curr_batch[1].shape[0]`). -/
structure BatchEffect where
  pdata : String → Tensor
  grad : String → Option Tensor
  numItems : ℕ

/-- Element of a floating-point tensor, for the one source expression where
IEEE special values can arise: finite value, NaN, or a signed infinity. -/
inductive FElem where
  | fin (q : ℚ)
  | nan
  | pinf
  | ninf
deriving DecidableEq, Repr

/-- IEEE-754 semantics of `fishers[name] /= total_num_items` (line 99) on one
finite element: dividing by the item count `n` yields NaN for `0/0`, a signed
infinity for `q/0` with `q ≠ 0`, and the exact quotient otherwise.  PyTorch
raises no exception on float division by zero. -/
def floatDivByCount (q : ℚ) (n : ℕ) : FElem :=
  if n = 0 then
    if q = 0 then FElem.nan else if 0 < q then FElem.pinf else FElem.ninf
  else FElem.fin (q / n)

/-- State carried through the Fisher-estimation loop of
`processAfterTraining` (lines 83-93 and, duplicated, lines 159-169): the
`params` and `fishers` accumulator dicts and `total_num_items`. -/
structure FisherState where
  params : TensorDict
  fishers : TensorDict
  total_num_items : ℕ
deriving DecidableEq, Repr

namespace GCTaskILEWCTrainer

/-- Lines 53-58 of `GCTaskILEWCTrainer.afterInference`: the regularization
scalar `loss_reg`, accumulated over `zip(training_states['params'],
training_states['fishers'])` and over `model.named_parameters()`; per
parameter the elementwise quantity `self.lamb * _fisher[name] *
(p - _param[name]) ** 2` is summed over the tensor (`l.sum()`). -/
def loss_reg (lamb : ℚ) (model : NamedParams) (ts : TrainingStates) : ℚ :=
  (ts.params.zip ts.fishers).foldl (fun acc pf =>
    model.foldl (fun acc2 np =>
      acc2 + (List.zipWith (fun f d => lamb * f * d ^ 2)
        (TensorDict.get pf.2 np.1)
        (List.zipWith (fun pe se => pe - se) np.2 (TensorDict.get pf.1 np.1))).sum) acc) 0

/-- The dictionary returned by `afterInference` (lines 62-64).  The
`acc` entry comes from the external `self.eval_fn` collaborator and is
passed through. -/
structure AfterInfOut where
  num_items : ℕ
  loss : ℚ
  acc : ℚ
deriving DecidableEq, Repr

/-- Lines 53-64, `GCTaskILEWCTrainer.afterInference`: add `loss_reg` to the
task loss from `results['loss']`, backpropagate (mutates gradients, not the
training state), step the optimizer, and return the result record.
`numPreds` is `results['preds'].shape[0]` and `accVal` the external
`eval_fn` output.  The training state is returned to expose that the
function only reads it. -/
def afterInference (lamb taskLoss : ℚ) (numPreds : ℕ) (accVal : ℚ)
    (model : NamedParams) (ts : TrainingStates) : AfterInfOut × TrainingStates :=
  let total_loss := taskLoss + loss_reg lamb model ts
  ({ num_items := numPreds, loss := total_loss, acc := accVal }, ts)

/-- Line 67, `GCTaskILEWCTrainer.initTrainingStates`:
`{'fishers': [], 'params': []}`. -/
def initTrainingStates : TrainingStates :=
  { fishers := [], params := [] }

/-- Lines 83-84: `{name: torch.zeros_like(p) for name, p in
curr_model.named_parameters()}` for both accumulators, and
`total_num_items = 0` (line 87). -/
def initFisherState (model : NamedParams) : FisherState :=
  { params := model.map (fun np => (np.1, np.2.map (fun _ => 0)))
    fishers := model.map (fun np => (np.1, np.2.map (fun _ => 0)))
    total_num_items := 0 }

/-- Line 96 for one parameter: `fishers[name] += (p.grad.data.clone().detach()
** 2) * curr_num_items` when the gradient is present, else unchanged. -/
def fisherAcc (acc : Tensor) (g : Option Tensor) (n : ℕ) : Tensor :=
  match g with
  | some gt => List.zipWith (fun a ge => a + ge ^ 2 * (n : ℚ)) acc gt
  | none => acc

/-- One iteration of the loop at lines 88-96: accumulate the batch's item
count, overwrite `params[name]` with the current parameter data (line 95),
and add the squared gradients times the item count into `fishers[name]`
(line 96), for every name in `curr_model.named_parameters()`. -/
def fisherBatchStep (st : FisherState) (b : BatchEffect) : FisherState :=
  { params := st.params.map (fun np => (np.1, b.pdata np.1))
    fishers := st.fishers.map (fun nf => (nf.1, fisherAcc nf.2 (b.grad nf.1) b.numItems))
    total_num_items := st.total_num_items + b.numItems }

/-- The whole loop at lines 87-96 over the batches produced by
`prepareLoader` (line 85). -/
def fisherLoop (model : NamedParams) (batches : List BatchEffect) : FisherState :=
  batches.foldl fisherBatchStep (initFisherState model)

/-- Lines 98-99: `fishers[name] /= total_num_items` for every name, in exact
rational arithmetic (faithful whenever `total_num_items ≠ 0`; the
`total_num_items = 0` case is modelled exactly by `fishersFloat`). -/
def fisherEstimate (model : NamedParams) (batches : List BatchEffect) : TensorDict :=
  (fisherLoop model batches).fishers.map
    (fun nf => (nf.1, nf.2.map (fun x => x / ((fisherLoop model batches).total_num_items : ℚ))))

/-- Lines 98-99 with IEEE-754 float semantics for the division, the form the
stored tensors actually take in PyTorch: each element of each Fisher
accumulator divided by `total_num_items` via `floatDivByCount`. -/
def fishersFloat (model : NamedParams) (batches : List BatchEffect) :
    List (String × List FElem) :=
  (fisherLoop model batches).fishers.map
    (fun nf => (nf.1, nf.2.map (fun x => floatDivByCount x (fisherLoop model batches).total_num_items)))

/-- Lines 82-102, `GCTaskILEWCTrainer.processAfterTraining`: after the base
trainer's own hook (an external collaborator that does not touch the
EWC-owned `'fishers'`/`'params'` keys), run the Fisher-estimation loop over
the task's batches and append the normalized Fisher dict and the parameter
snapshot dict to the training state (lines 101-102). -/
def processAfterTraining (model : NamedParams) (batches : List BatchEffect)
    (ts : TrainingStates) : TrainingStates :=
  { fishers := ts.fishers ++ [fisherEstimate model batches]
    params := ts.params ++ [(fisherLoop model batches).params] }

/-- An exception escaping one iteration of the Fisher-estimation loop: the
external `self.inference` forward pass or `loss.backward()` raising on some
batch (lines 90-91). -/
inductive EwcError where
  | batchFailure (msg : String)
deriving DecidableEq, Repr

/-- The loop at lines 88-96 with exceptions modelled: each list entry is the
attempted outcome of `zero_grad`/`inference`/`backward` on one batch; a
raised exception stops the loop immediately and propagates. -/
def fisherLoopE (st : FisherState) :
    List (Except EwcError BatchEffect) → Except EwcError FisherState
  | [] => Except.ok st
  | Except.error e :: _ => Except.error e
  | Except.ok b :: rest => fisherLoopE (fisherBatchStep st b) rest

/-- Lines 82-102 with exceptions modelled: a failure inside the loop
propagates to the caller before the two `append` calls at lines 101-102
execute, leaving `curr_training_states` exactly as it was. -/
def processAfterTrainingE (model : NamedParams)
    (batches : List (Except EwcError BatchEffect)) (ts : TrainingStates) :
    Except EwcError TrainingStates :=
  match fisherLoopE (initFisherState model) batches with
  | Except.error e => Except.error e
  | Except.ok st =>
      Except.ok
        { fishers := ts.fishers ++
            [st.fishers.map (fun nf => (nf.1, nf.2.map (fun x => x / (st.total_num_items : ℚ))))]
          params := ts.params ++ [st.params] }

end GCTaskILEWCTrainer

namespace GCClassILEWCTrainer

/-- Lines 129-134 of `GCClassILEWCTrainer.afterInference`: the regularization
scalar `loss_reg`, transcribed from the class-incremental trainer's own body
(textually duplicated in the source from the task-incremental one). -/
def loss_reg (lamb : ℚ) (model : NamedParams) (ts : TrainingStates) : ℚ :=
  (ts.params.zip ts.fishers).foldl (fun acc pf =>
    model.foldl (fun acc2 np =>
      acc2 + (List.zipWith (fun f d => lamb * f * d ^ 2)
        (TensorDict.get pf.2 np.1)
        (List.zipWith (fun pe se => pe - se) np.2 (TensorDict.get pf.1 np.1))).sum) acc) 0

/-- Lines 129-140, `GCClassILEWCTrainer.afterInference`. -/
def afterInference (lamb taskLoss : ℚ) (numPreds : ℕ) (accVal : ℚ)
    (model : NamedParams) (ts : TrainingStates) :
    GCTaskILEWCTrainer.AfterInfOut × TrainingStates :=
  let total_loss := taskLoss + loss_reg lamb model ts
  ({ num_items := numPreds, loss := total_loss, acc := accVal }, ts)

/-- Line 143, `GCClassILEWCTrainer.initTrainingStates`. -/
def initTrainingStates : TrainingStates :=
  { fishers := [], params := [] }

/-- The Fisher-estimation loop of lines 163-172, transcribed from the
class-incremental trainer's own body. -/
def fisherLoop (model : NamedParams) (batches : List BatchEffect) : FisherState :=
  batches.foldl
    (fun (st : FisherState) (b : BatchEffect) =>
      ({ params := st.params.map (fun np => (np.1, b.pdata np.1))
         fishers := st.fishers.map
           (fun nf => (nf.1, match b.grad nf.1 with
             | some gt => List.zipWith (fun a ge => a + ge ^ 2 * (b.numItems : ℚ)) nf.2 gt
             | none => nf.2))
         total_num_items := st.total_num_items + b.numItems } : FisherState))
    ({ params := model.map (fun np => (np.1, np.2.map (fun _ => 0)))
       fishers := model.map (fun np => (np.1, np.2.map (fun _ => 0)))
       total_num_items := 0 } : FisherState)

/-- Lines 158-178, `GCClassILEWCTrainer.processAfterTraining`. -/
def processAfterTraining (model : NamedParams) (batches : List BatchEffect)
    (ts : TrainingStates) : TrainingStates :=
  { fishers := ts.fishers ++
      [(fisherLoop model batches).fishers.map
        (fun nf => (nf.1, nf.2.map (fun x => x / ((fisherLoop model batches).total_num_items : ℚ))))]
    params := ts.params ++ [(fisherLoop model batches).params] }

end GCClassILEWCTrainer

namespace GCDomainILEWCTrainer

/-- `GCDomainILEWCTrainer` (lines 180-184) subclasses `GCClassILEWCTrainer`
with an empty body, so every event function is inherited unchanged. -/
def afterInference := GCClassILEWCTrainer.afterInference

/-- Inherited `initTrainingStates` (line 184: `pass`). -/
def initTrainingStates := GCClassILEWCTrainer.initTrainingStates

/-- Inherited `processAfterTraining` (line 184: `pass`). -/
def processAfterTraining := GCClassILEWCTrainer.processAfterTraining

end GCDomainILEWCTrainer

namespace GCTimeILEWCTrainer

/-- `GCTimeILEWCTrainer` (lines 186-190) subclasses `GCClassILEWCTrainer`
with an empty body, so every event function is inherited unchanged. -/
def afterInference := GCClassILEWCTrainer.afterInference

/-- Inherited `initTrainingStates` (line 190: `pass`). -/
def initTrainingStates := GCClassILEWCTrainer.initTrainingStates

/-- Inherited `processAfterTraining` (line 190: `pass`). -/
def processAfterTraining := GCClassILEWCTrainer.processAfterTraining

end GCTimeILEWCTrainer

/-- One state-touching event of a continual-learning run with the
task-incremental EWC trainer: either an ordinary training step (whose
`afterInference` reads the state) or a task completion (whose
`processAfterTraining` appends one snapshot/Fisher pair). -/
inductive TrainerOp where
  | trainStep (lamb taskLoss : ℚ) (numPreds : ℕ) (accVal : ℚ) (model : NamedParams)
  | completeTask (model : NamedParams) (batches : List BatchEffect)

/-- Whether an event is a task completion. -/
def TrainerOp.isComplete : TrainerOp → Bool
  | TrainerOp.trainStep _ _ _ _ _ => false
  | TrainerOp.completeTask _ _ => true

/-- Apply one run event to the training state through the embedded event
functions. -/
def applyOp (ts : TrainingStates) : TrainerOp → TrainingStates
  | TrainerOp.trainStep lamb l n a m => (GCTaskILEWCTrainer.afterInference lamb l n a m ts).2
  | TrainerOp.completeTask m bs => GCTaskILEWCTrainer.processAfterTraining m bs ts

/-- A whole run: start from `initTrainingStates` and apply the events in
order. -/
def runOps (ops : List TrainerOp) : TrainingStates :=
  ops.foldl applyOp GCTaskILEWCTrainer.initTrainingStates

/-- Element `j` of a flattened tensor, `0` out of range. -/
def tget (t : Tensor) (j : ℕ) : ℚ :=
  t.getD j 0

/-- The EWC penalty as the specification words it (spec §4.2): for every
historical task index `i`, for every parameter name present in the live
model, `lambda * fisher[i][name] * (current_param[name] -
snapshot[i][name]) ** 2` summed over all elements of the parameter tensor,
summed across all parameters and all historical tasks into one scalar.
Written independently of the source transcription `loss_reg`, to be compared
with it. -/
def penaltySpec (lamb : ℚ) (model : NamedParams) (ts : TrainingStates) : ℚ :=
  ∑ i ∈ Finset.range ts.params.length,
    ∑ k ∈ Finset.range model.length,
      ∑ j ∈ Finset.range (model.getD k ("", [])).2.length,
        lamb * tget (TensorDict.get (ts.fishers.getD i []) (model.getD k ("", [])).1) j *
          (tget (model.getD k ("", [])).2 j -
            tget (TensorDict.get (ts.params.getD i []) (model.getD k ("", [])).1) j) ^ 2

/-- A stored dict agrees in shape with the live model (spec §3 invariant:
every snapshot and every fisher estimate contains an entry of matching shape
for every parameter name of the model). -/
def dictMatches (model : NamedParams) (d : TensorDict) : Bool :=
  model.all (fun np => (TensorDict.get d np.1).length == np.2.length)

/-- Every stored snapshot and Fisher dict agrees in shape with the live
model. -/
def statesWF (model : NamedParams) (ts : TrainingStates) : Bool :=
  ts.fishers.all (dictMatches model) && ts.params.all (dictMatches model)

/-- The evolution of one Fisher accumulator entry (keyed by `name`) through
the loop at lines 88-96: per batch, `fisherAcc` with that batch's gradient
for `name` and item count. -/
def fisherEvolve (name : String) (batches : List BatchEffect) (t : Tensor) : Tensor :=
  batches.foldl (fun acc b => GCTaskILEWCTrainer.fisherAcc acc (b.grad name) b.numItems) t

/-! ## Helper lemmas -/

@[simp] theorem tget_nil (j : ℕ) : tget [] j = 0 := rfl

@[simp] theorem tget_cons_zero (x : ℚ) (xs : List ℚ) : tget (x :: xs) 0 = x := rfl

@[simp] theorem tget_cons_succ (x : ℚ) (xs : List ℚ) (j : ℕ) :
    tget (x :: xs) (j + 1) = tget xs j := rfl

theorem foldl_add_eq {α : Type} (f : α → ℚ) (l : List α) (init : ℚ) :
    l.foldl (fun a x => a + f x) init = init + (l.map f).sum := by
  induction l generalizing init with
  | nil => simp
  | cons x xs ih => simp [ih, add_assoc]

theorem sum_map_getD {α : Type} (d : α) (f : α → ℚ) (l : List α) :
    (l.map f).sum = ∑ k ∈ Finset.range l.length, f (l.getD k d) := by
  induction l with
  | nil => simp
  | cons x xs ih =>
      rw [List.map_cons, List.sum_cons, List.length_cons, Finset.sum_range_succ']
      simp [ih, add_comm]

theorem sum_map_zip (F : TensorDict × TensorDict → ℚ) :
    ∀ (ps fs : List TensorDict), ps.length = fs.length →
      ((ps.zip fs).map F).sum = ∑ i ∈ Finset.range ps.length, F (ps.getD i [], fs.getD i []) := by
  intro ps
  induction ps with
  | nil => intro fs _; simp
  | cons p ps ih =>
      intro fs hlen
      cases fs with
      | nil => simp at hlen
      | cons f fs =>
          rw [List.zip_cons_cons, List.map_cons, List.sum_cons, List.length_cons,
            Finset.sum_range_succ']
          simp only [List.length_cons, Nat.succ_inj] at hlen
          simp [ih fs hlen, add_comm]

theorem tget_zipWith (h : ℚ → ℚ → ℚ) :
    ∀ (a b : List ℚ) (j : ℕ), j < min a.length b.length →
      tget (List.zipWith h a b) j = h (tget a j) (tget b j) := by
  intro a
  induction a with
  | nil => intro b j hj; simp at hj
  | cons x xs ih =>
      intro b j hj
      cases b with
      | nil => simp at hj
      | cons y ys =>
          cases j with
          | zero => simp
          | succ j =>
              simp only [List.zipWith_cons_cons, tget_cons_succ]
              exact ih ys j (by simpa [Nat.succ_min_succ] using hj)

theorem sum_zipWith (g : ℚ → ℚ → ℚ) :
    ∀ (a b : List ℚ), (List.zipWith g a b).sum
      = ∑ j ∈ Finset.range (min a.length b.length), g (tget a j) (tget b j) := by
  intro a
  induction a with
  | nil => intro b; simp
  | cons x xs ih =>
      intro b
      cases b with
      | nil => simp
      | cons y ys =>
          rw [List.zipWith_cons_cons, List.sum_cons, List.length_cons, List.length_cons,
            Nat.succ_min_succ, Finset.sum_range_succ']
          simp [ih ys, add_comm]

theorem loss_reg_eq_sum (lamb : ℚ) (model : NamedParams) (ts : TrainingStates) :
    GCTaskILEWCTrainer.loss_reg lamb model ts
      = ((ts.params.zip ts.fishers).map (fun pf =>
          (model.map (fun np =>
            (List.zipWith (fun f d => lamb * f * d ^ 2)
              (TensorDict.get pf.2 np.1)
              (List.zipWith (fun pe se => pe - se) np.2 (TensorDict.get pf.1 np.1))).sum)).sum)).sum := by
  simp only [GCTaskILEWCTrainer.loss_reg, foldl_add_eq, zero_add]

theorem ewc_term_eq (lamb : ℚ) (f p s : Tensor)
    (hf : f.length = p.length) (hs : s.length = p.length) :
    (List.zipWith (fun fe d => lamb * fe * d ^ 2) f
      (List.zipWith (fun pe se => pe - se) p s)).sum
      = ∑ j ∈ Finset.range p.length, lamb * tget f j * (tget p j - tget s j) ^ 2 := by
  rw [sum_zipWith]
  have hmin : min f.length (List.zipWith (fun pe se => pe - se) p s).length = p.length := by
    simp [List.length_zipWith, hf, hs]
  rw [hmin]
  refine Finset.sum_congr rfl ?_
  intro j hj
  have hj2 : j < min p.length s.length := by
    rw [hs, min_self]
    exact Finset.mem_range.mp hj
  rw [tget_zipWith _ _ _ _ hj2]

/-- The shape facts that `statesWF` provides for one history entry and one
model parameter. -/
theorem statesWF_shapes (model : NamedParams) (ts : TrainingStates)
    (hwf : statesWF model ts = true) :
    (∀ d ∈ ts.fishers, ∀ np ∈ model, (TensorDict.get d np.1).length = np.2.length) ∧
    (∀ d ∈ ts.params, ∀ np ∈ model, (TensorDict.get d np.1).length = np.2.length) := by
  simp only [statesWF, Bool.and_eq_true, List.all_eq_true, dictMatches, beq_iff_eq] at hwf
  exact ⟨fun d hd np hnp => hwf.1 d hd np hnp, fun d hd np hnp => hwf.2 d hd np hnp⟩

theorem getD_mem_of_lt {α : Type} (l : List α) (i : ℕ) (d : α) (h : i < l.length) :
    l.getD i d ∈ l := by
  rw [List.getD_eq_getElem l d h]
  exact List.getElem_mem h

theorem runOps_aux (ops : List TrainerOp) :
    ∀ ts : TrainingStates,
      (ops.foldl applyOp ts).params.length
          = ts.params.length + ops.countP TrainerOp.isComplete ∧
      (ops.foldl applyOp ts).fishers.length
          = ts.fishers.length + ops.countP TrainerOp.isComplete := by
  induction ops with
  | nil => intro ts; simp
  | cons op ops ih =>
      intro ts
      cases op with
      | trainStep lamb l n a m =>
          simpa [applyOp, GCTaskILEWCTrainer.afterInference, TrainerOp.isComplete,
            List.countP_cons] using ih ts
      | completeTask m bs =>
          have h := ih (applyOp ts (TrainerOp.completeTask m bs))
          simp only [applyOp, GCTaskILEWCTrainer.processAfterTraining, List.length_append,
            List.length_cons, List.length_nil, List.foldl_cons, List.countP_cons,
            TrainerOp.isComplete, if_pos] at h ⊢
          omega

theorem fisherLoopE_error :
    ∀ (batches : List (Except GCTaskILEWCTrainer.EwcError BatchEffect)) (st : FisherState),
      (∃ e, Except.error e ∈ batches) →
      ∃ e, GCTaskILEWCTrainer.fisherLoopE st batches = Except.error e := by
  intro batches
  induction batches with
  | nil =>
      intro st h
      obtain ⟨e, he⟩ := h
      simp at he
  | cons b bs ih =>
      intro st h
      obtain ⟨e, he⟩ := h
      cases b with
      | error e0 => exact ⟨e0, rfl⟩
      | ok be =>
          rcases List.mem_cons.mp he with h0 | h0
          · exact absurd h0 (by simp)
          · exact ih (GCTaskILEWCTrainer.fisherBatchStep st be) ⟨e, h0⟩

theorem foldl_map_keyed {β : Type} (step : String → Tensor → β → Tensor) :
    ∀ (bs : List β) (d : TensorDict),
      bs.foldl (fun fs b => fs.map (fun nf => (nf.1, step nf.1 nf.2 b))) d
        = d.map (fun nf => (nf.1, bs.foldl (fun t b => step nf.1 t b) nf.2)) := by
  intro bs
  induction bs with
  | nil => intro d; simp
  | cons b bs ih =>
      intro d
      rw [List.foldl_cons, ih, List.map_map]
      rfl

theorem fisherLoop_components (batches : List BatchEffect) :
    ∀ st : FisherState,
      (batches.foldl GCTaskILEWCTrainer.fisherBatchStep st).fishers
        = batches.foldl (fun fs b => fs.map
            (fun nf => (nf.1, GCTaskILEWCTrainer.fisherAcc nf.2 (b.grad nf.1) b.numItems)))
            st.fishers ∧
      (batches.foldl GCTaskILEWCTrainer.fisherBatchStep st).params
        = batches.foldl (fun ps b => ps.map (fun np => (np.1, b.pdata np.1))) st.params ∧
      (batches.foldl GCTaskILEWCTrainer.fisherBatchStep st).total_num_items
        = st.total_num_items + (batches.map (fun b => b.numItems)).sum := by
  induction batches with
  | nil => intro st; simp
  | cons b bs ih =>
      intro st
      obtain ⟨h1, h2, h3⟩ := ih (GCTaskILEWCTrainer.fisherBatchStep st b)
      refine ⟨?_, ?_, ?_⟩
      · simp only [List.foldl_cons]
        rw [h1]
        rfl
      · simp only [List.foldl_cons]
        rw [h2]
        rfl
      · simp only [List.foldl_cons]
        rw [h3]
        simp only [GCTaskILEWCTrainer.fisherBatchStep, List.map_cons, List.sum_cons]
        omega

theorem fisherLoop_fishers_eq (model : NamedParams) (batches : List BatchEffect) :
    (GCTaskILEWCTrainer.fisherLoop model batches).fishers
      = model.map (fun np =>
          (np.1, fisherEvolve np.1 batches (np.2.map (fun _ => 0)))) := by
  rw [GCTaskILEWCTrainer.fisherLoop, (fisherLoop_components batches _).1]
  rw [foldl_map_keyed
    (fun name t b => GCTaskILEWCTrainer.fisherAcc t (b.grad name) b.numItems) batches]
  simp only [GCTaskILEWCTrainer.initFisherState, List.map_map]
  rfl

theorem fisherLoop_params_eq (model : NamedParams) (batches : List BatchEffect) :
    (GCTaskILEWCTrainer.fisherLoop model batches).params
      = model.map (fun np =>
          (np.1, batches.foldl (fun _ b => b.pdata np.1) (np.2.map (fun _ => 0)))) := by
  rw [GCTaskILEWCTrainer.fisherLoop, (fisherLoop_components batches _).2.1]
  rw [foldl_map_keyed (fun name _ b => b.pdata name) batches]
  simp only [GCTaskILEWCTrainer.initFisherState, List.map_map]
  rfl

theorem lookup_map_keyed {β γ : Type} (f : String → β → γ) (name : String) :
    ∀ l : List (String × β),
      List.lookup name (l.map (fun nf => (nf.1, f nf.1 nf.2)))
        = (List.lookup name l).map (fun v => f name v) := by
  intro l
  induction l with
  | nil => rfl
  | cons x xs ih =>
      obtain ⟨k, v⟩ := x
      by_cases h : name = k
      · subst h
        simp [List.lookup]
      · have hb : (name == k) = false := beq_eq_false_iff_ne.mpr h
        simp [List.lookup, ih, hb]

theorem tget_fisherAcc_some (n : ℕ) :
    ∀ (t g : List ℚ), g.length = t.length → ∀ j : ℕ,
      tget (List.zipWith (fun a ge => a + ge ^ 2 * (n : ℚ)) t g) j
        = tget t j + tget g j ^ 2 * (n : ℚ) := by
  intro t
  induction t with
  | nil =>
      intro g hg j
      cases g with
      | nil => simp
      | cons y ys => simp at hg
  | cons x xs ih =>
      intro g hg j
      cases g with
      | nil => simp at hg
      | cons y ys =>
          cases j with
          | zero => simp
          | succ j =>
              simp only [List.zipWith_cons_cons, tget_cons_succ]
              exact ih ys (by simpa using hg) j

theorem fisherAcc_length (t : Tensor) (g : Option Tensor) (n : ℕ)
    (h : ∀ gt, g = some gt → gt.length = t.length) :
    (GCTaskILEWCTrainer.fisherAcc t g n).length = t.length := by
  cases g with
  | none => rfl
  | some gt => simp [GCTaskILEWCTrainer.fisherAcc, List.length_zipWith, h gt rfl]

theorem tget_fisherAcc (t : Tensor) (g : Option Tensor) (n : ℕ) (j : ℕ)
    (h : ∀ gt, g = some gt → gt.length = t.length) :
    tget (GCTaskILEWCTrainer.fisherAcc t g n) j
      = tget t j + tget (g.getD []) j ^ 2 * (n : ℚ) := by
  cases g with
  | none => simp [GCTaskILEWCTrainer.fisherAcc]
  | some gt => simpa [GCTaskILEWCTrainer.fisherAcc] using tget_fisherAcc_some n t gt (h gt rfl) j

theorem fisherEvolve_spec (name : String) :
    ∀ (batches : List BatchEffect) (t : Tensor),
      (∀ b ∈ batches, ∀ g, b.grad name = some g → g.length = t.length) →
      (fisherEvolve name batches t).length = t.length ∧
      ∀ j : ℕ, tget (fisherEvolve name batches t) j
        = tget t j +
          (batches.map (fun b => tget ((b.grad name).getD []) j ^ 2 * (b.numItems : ℚ))).sum := by
  intro batches
  induction batches with
  | nil => intro t _; exact ⟨rfl, by simp [fisherEvolve]⟩
  | cons b bs ih =>
      intro t hwf
      have hb : ∀ g, b.grad name = some g → g.length = t.length :=
        fun g hg => hwf b (by simp) g hg
      have hlen1 : (GCTaskILEWCTrainer.fisherAcc t (b.grad name) b.numItems).length = t.length :=
        fisherAcc_length t _ _ hb
      have hwf2 : ∀ b2 ∈ bs, ∀ g, b2.grad name = some g →
          g.length = (GCTaskILEWCTrainer.fisherAcc t (b.grad name) b.numItems).length := by
        intro b2 hb2 g hg
        rw [hlen1]
        exact hwf b2 (by simp [hb2]) g hg
      obtain ⟨ihlen, ihval⟩ :=
        ih (GCTaskILEWCTrainer.fisherAcc t (b.grad name) b.numItems) hwf2
      have hstep : fisherEvolve name (b :: bs) t
          = fisherEvolve name bs (GCTaskILEWCTrainer.fisherAcc t (b.grad name) b.numItems) := rfl
      refine ⟨by rw [hstep, ihlen, hlen1], ?_⟩
      intro j
      rw [hstep, ihval j, tget_fisherAcc t _ _ j hb]
      simp only [List.map_cons, List.sum_cons]
      ring

theorem tget_map_div (c : ℚ) : ∀ (t : Tensor) (j : ℕ),
    tget (t.map (fun x => x / c)) j = tget t j / c := by
  intro t
  induction t with
  | nil => intro j; simp
  | cons x xs ih =>
      intro j
      cases j with
      | zero => simp
      | succ j => simpa using ih j

theorem tget_map_zero (t : Tensor) (j : ℕ) : tget (t.map (fun _ => (0 : ℚ))) j = 0 := by
  induction t generalizing j with
  | nil => simp
  | cons x xs ih =>
      cases j with
      | zero => simp
      | succ j => simpa using ih j

theorem zipWith_add_sq_nonneg (n : ℕ) :
    ∀ (t g : List ℚ), (∀ a ∈ t, 0 ≤ a) →
      ∀ x ∈ List.zipWith (fun a ge => a + ge ^ 2 * (n : ℚ)) t g, 0 ≤ x := by
  intro t
  induction t with
  | nil => intro g _ x hx; simp at hx
  | cons a as ih =>
      intro g ht x hx
      cases g with
      | nil => simp at hx
      | cons y ys =>
          rw [List.zipWith_cons_cons] at hx
          rcases List.mem_cons.mp hx with h | h
          · subst h
            have ha : 0 ≤ a := ht a (by simp)
            have : (0 : ℚ) ≤ y ^ 2 * (n : ℚ) :=
              mul_nonneg (sq_nonneg y) (by positivity)
            linarith
          · exact ih ys (fun a2 ha2 => ht a2 (by simp [ha2])) x h

theorem fisherAcc_nonneg (t : Tensor) (g : Option Tensor) (n : ℕ)
    (ht : ∀ a ∈ t, 0 ≤ a) : ∀ x ∈ GCTaskILEWCTrainer.fisherAcc t g n, 0 ≤ x := by
  cases g with
  | none => exact ht
  | some gt => exact zipWith_add_sq_nonneg n t gt ht

theorem fisherEvolve_nonneg (name : String) :
    ∀ (batches : List BatchEffect) (t : Tensor), (∀ a ∈ t, 0 ≤ a) →
      ∀ x ∈ fisherEvolve name batches t, 0 ≤ x := by
  intro batches
  induction batches with
  | nil => intro t ht x hx; exact ht x hx
  | cons b bs ih =>
      intro t ht x hx
      exact ih (GCTaskILEWCTrainer.fisherAcc t (b.grad name) b.numItems)
        (fisherAcc_nonneg t _ _ ht) x hx

theorem fisherEvolve_grad_none (name : String) :
    ∀ (batches : List BatchEffect) (t : Tensor),
      (∀ b ∈ batches, b.grad name = none) → fisherEvolve name batches t = t := by
  intro batches
  induction batches with
  | nil => intro t _; rfl
  | cons b bs ih =>
      intro t h
      have hb : b.grad name = none := h b (by simp)
      have hstep : fisherEvolve name (b :: bs) t
          = fisherEvolve name bs (GCTaskILEWCTrainer.fisherAcc t (b.grad name) b.numItems) := rfl
      rw [hstep, hb]
      exact ih t (fun b2 hb2 => h b2 (by simp [hb2]))

/-! ## Claims -/

/-- C1: the EWC penalty added to the task loss in `afterInference` equals
the sum, over every historical task index and every parameter name in the
live model, of `lambda * fisher[i][name] * (current - snapshot[i][name])^2`
summed over all tensor elements (`penaltySpec`, worded from the spec); and
in the two-completed-task scenario with `lambda = 10000`, `fisher[0] = 0.01`,
`fisher[1] = 0.02`, `snapshot[0] = 1.0`, `snapshot[1] = 2.0` and current
`w = 1.5`, the penalty contribution from `w` is exactly 75. -/
theorem ewc_penalty_matches_spec_formula :
    (∀ (lamb : ℚ) (model : NamedParams) (ts : TrainingStates),
        ts.params.length = ts.fishers.length → statesWF model ts = true →
        GCTaskILEWCTrainer.loss_reg lamb model ts = penaltySpec lamb model ts) ∧
    GCTaskILEWCTrainer.loss_reg 10000 [("w", [3 / 2])]
        { fishers := [[("w", [1 / 100])], [("w", [1 / 50])]]
          params := [[("w", [1])], [("w", [2])]] } = 75 := by
  constructor
  · intro lamb model ts hlen hwf
    obtain ⟨hfsh, hsnp⟩ := statesWF_shapes model ts hwf
    rw [loss_reg_eq_sum, sum_map_zip _ _ _ hlen]
    unfold penaltySpec
    refine Finset.sum_congr rfl ?_
    intro i hi
    rw [sum_map_getD ("", [])]
    refine Finset.sum_congr rfl ?_
    intro k hk
    have hi2 : i < ts.params.length := Finset.mem_range.mp hi
    have hk2 : k < model.length := Finset.mem_range.mp hk
    have hnp : model.getD k ("", []) ∈ model := getD_mem_of_lt model k _ hk2
    have hfm : ts.fishers.getD i [] ∈ ts.fishers :=
      getD_mem_of_lt _ i _ (hlen ▸ hi2)
    have hpm : ts.params.getD i [] ∈ ts.params := getD_mem_of_lt _ i _ hi2
    exact ewc_term_eq lamb _ _ _ (hfsh _ hfm _ hnp) (hsnp _ hpm _ hnp)
  · norm_num [GCTaskILEWCTrainer.loss_reg, TensorDict.get, List.lookup]

/-- Witness for `ewc_penalty_matches_spec_formula`: the spec scenario state
satisfies the hypotheses, and on it the transcribed penalty equals the
spec-worded formula. -/
theorem ewc_penalty_matches_spec_formula_witness :
    GCTaskILEWCTrainer.loss_reg 10000 [("w", [3 / 2])]
        { fishers := [[("w", [1 / 100])], [("w", [1 / 50])]]
          params := [[("w", [1])], [("w", [2])]] }
      = penaltySpec 10000 [("w", [3 / 2])]
        { fishers := [[("w", [1 / 100])], [("w", [1 / 50])]]
          params := [[("w", [1])], [("w", [2])]] } :=
  ewc_penalty_matches_spec_formula.1 10000 [("w", [3 / 2])]
    { fishers := [[("w", [1 / 100])], [("w", [1 / 50])]]
      params := [[("w", [1])], [("w", [2])]] } (by decide) (by decide)

/-- C5: with empty history (no tasks completed yet) the regularization
penalty computed in `afterInference` is exactly 0 for every model and every
lambda, so the returned total loss equals the task loss unchanged. -/
theorem ewc_empty_history_penalty_zero :
    ∀ (lamb taskLoss : ℚ) (numPreds : ℕ) (accVal : ℚ) (model : NamedParams)
      (ts : TrainingStates), ts.fishers = [] → ts.params = [] →
      GCTaskILEWCTrainer.loss_reg lamb model ts = 0 ∧
      (GCTaskILEWCTrainer.afterInference lamb taskLoss numPreds accVal model ts).1.loss
        = taskLoss := by
  intro lamb taskLoss numPreds accVal model ts hf hp
  have h0 : GCTaskILEWCTrainer.loss_reg lamb model ts = 0 := by
    simp [GCTaskILEWCTrainer.loss_reg, hf, hp]
  exact ⟨h0, by simp [GCTaskILEWCTrainer.afterInference, h0]⟩

/-- Witness for `ewc_empty_history_penalty_zero` at a concrete model, lambda
and freshly initialized state. -/
theorem ewc_empty_history_penalty_zero_witness :
    GCTaskILEWCTrainer.loss_reg 5 [("w", [2])] { fishers := [], params := [] } = 0 ∧
    (GCTaskILEWCTrainer.afterInference 5 7 4 1 [("w", [2])]
      { fishers := [], params := [] }).1.loss = 7 :=
  ewc_empty_history_penalty_zero 5 7 4 1 [("w", [2])]
    { fishers := [], params := [] } rfl rfl

/-- C7: the class-incremental transcription computes the same penalty,
initial state and Fisher/snapshot results as the task-incremental one, and
the domain- and time-incremental trainers add no behavior over the
class-incremental one. -/
theorem ewc_variants_identical :
    GCClassILEWCTrainer.loss_reg = GCTaskILEWCTrainer.loss_reg ∧
    GCClassILEWCTrainer.afterInference = GCTaskILEWCTrainer.afterInference ∧
    GCClassILEWCTrainer.initTrainingStates = GCTaskILEWCTrainer.initTrainingStates ∧
    GCClassILEWCTrainer.fisherLoop = GCTaskILEWCTrainer.fisherLoop ∧
    GCClassILEWCTrainer.processAfterTraining = GCTaskILEWCTrainer.processAfterTraining ∧
    GCDomainILEWCTrainer.afterInference = GCClassILEWCTrainer.afterInference ∧
    GCDomainILEWCTrainer.initTrainingStates = GCClassILEWCTrainer.initTrainingStates ∧
    GCDomainILEWCTrainer.processAfterTraining = GCClassILEWCTrainer.processAfterTraining ∧
    GCTimeILEWCTrainer.afterInference = GCClassILEWCTrainer.afterInference ∧
    GCTimeILEWCTrainer.initTrainingStates = GCClassILEWCTrainer.initTrainingStates ∧
    GCTimeILEWCTrainer.processAfterTraining = GCClassILEWCTrainer.processAfterTraining :=
  ⟨rfl, rfl, rfl, rfl, rfl, rfl, rfl, rfl, rfl, rfl, rfl⟩

/-- C10: `afterInference` returns the training state it was given — it never
modifies the history — while `processAfterTraining` changes the history
exactly by appending one Fisher dict and one snapshot dict. -/
theorem ewc_afterInference_preserves_history :
    (∀ (lamb taskLoss : ℚ) (numPreds : ℕ) (accVal : ℚ) (model : NamedParams)
      (ts : TrainingStates),
      (GCTaskILEWCTrainer.afterInference lamb taskLoss numPreds accVal model ts).2 = ts) ∧
    (∀ (model : NamedParams) (batches : List BatchEffect) (ts : TrainingStates),
      (GCTaskILEWCTrainer.processAfterTraining model batches ts).fishers
          = ts.fishers ++ [GCTaskILEWCTrainer.fisherEstimate model batches] ∧
      (GCTaskILEWCTrainer.processAfterTraining model batches ts).params
          = ts.params ++ [(GCTaskILEWCTrainer.fisherLoop model batches).params]) :=
  ⟨fun _ _ _ _ _ _ => rfl, fun _ _ _ => ⟨rfl, rfl⟩⟩

/-- C4: the history starts empty, grows by exactly one snapshot/Fisher pair
per completed task, and after any run both sequences have length equal to
the number of completed tasks; no event ever removes entries — every event
extends the existing history. -/
theorem ewc_history_length_invariant :
    (GCTaskILEWCTrainer.initTrainingStates.params = [] ∧
      GCTaskILEWCTrainer.initTrainingStates.fishers = []) ∧
    (∀ ops : List TrainerOp,
      (runOps ops).params.length = ops.countP TrainerOp.isComplete ∧
      (runOps ops).fishers.length = ops.countP TrainerOp.isComplete) ∧
    (∀ (ts : TrainingStates) (op : TrainerOp),
      ∃ e1 e2, (applyOp ts op).params = ts.params ++ e1 ∧
        (applyOp ts op).fishers = ts.fishers ++ e2) := by
  refine ⟨⟨rfl, rfl⟩, ?_, ?_⟩
  · intro ops
    have h := runOps_aux ops GCTaskILEWCTrainer.initTrainingStates
    simpa [runOps, GCTaskILEWCTrainer.initTrainingStates] using h
  · intro ts op
    cases op with
    | trainStep lamb l n a m =>
        exact ⟨[], [], by simp [applyOp, GCTaskILEWCTrainer.afterInference],
          by simp [applyOp, GCTaskILEWCTrainer.afterInference]⟩
    | completeTask m bs =>
        exact ⟨[(GCTaskILEWCTrainer.fisherLoop m bs).params],
          [GCTaskILEWCTrainer.fisherEstimate m bs], rfl, rfl⟩

/-- C9: if any batch of the Fisher-estimation pass raises (inference or
backward fails), `processAfterTraining` propagates the failure to its caller
and the two appends at lines 101-102 never execute, so the caller keeps its
training state exactly as it was. -/
theorem ewc_failed_estimation_appends_nothing :
    ∀ (model : NamedParams) (batches : List (Except GCTaskILEWCTrainer.EwcError BatchEffect))
      (ts : TrainingStates),
      (∃ e, Except.error e ∈ batches) →
      ∃ e, GCTaskILEWCTrainer.processAfterTrainingE model batches ts = Except.error e := by
  intro model batches ts h
  obtain ⟨e, he⟩ := fisherLoopE_error batches (GCTaskILEWCTrainer.initFisherState model) h
  exact ⟨e, by simp [GCTaskILEWCTrainer.processAfterTrainingE, he]⟩

/-- Witness for `ewc_failed_estimation_appends_nothing`: one failing batch
makes the whole call fail. -/
theorem ewc_failed_estimation_appends_nothing_witness :
    ∃ e, GCTaskILEWCTrainer.processAfterTrainingE [("w", [2])]
        [Except.error (GCTaskILEWCTrainer.EwcError.batchFailure "backward raised")]
        { fishers := [], params := [] } = Except.error e :=
  ewc_failed_estimation_appends_nothing [("w", [2])]
    [Except.error (GCTaskILEWCTrainer.EwcError.batchFailure "backward raised")]
    { fishers := [], params := [] }
    ⟨GCTaskILEWCTrainer.EwcError.batchFailure "backward raised", by simp⟩

/-- C2, evaluated at the failing input: with an empty task dataset the loop
sees zero items; the division at line 99 is not guarded, raises nothing,
and under IEEE float semantics stores NaN Fisher values, and the entry is
appended to history anyway — the code silently corrupts the history instead
of failing fatally as the claim requires. -/
theorem ewc_empty_dataset_silently_appends_nan :
    (GCTaskILEWCTrainer.fisherLoop [("w", [4])] []).total_num_items = 0 ∧
    GCTaskILEWCTrainer.fishersFloat [("w", [4])] [] = [("w", [FElem.nan])] ∧
    GCTaskILEWCTrainer.processAfterTrainingE [("w", [4])] [] { fishers := [], params := [] }
      = Except.ok { fishers := [[("w", [0])]], params := [[("w", [0])]] } := by
  refine ⟨rfl, ?_, ?_⟩
  · norm_num [GCTaskILEWCTrainer.fishersFloat, GCTaskILEWCTrainer.fisherLoop,
      GCTaskILEWCTrainer.initFisherState, floatDivByCount]
  · norm_num [GCTaskILEWCTrainer.processAfterTrainingE, GCTaskILEWCTrainer.fisherLoopE,
      GCTaskILEWCTrainer.initFisherState]

/-- C3: for a task dataset with at least one labeled item, each element of
the Fisher estimate for a parameter equals the sum over batches of
`gradient^2 * batch_item_count` divided by the total item count; and with
two batches of 3 and 5 items and a constant per-batch gradient `g` for `w`,
the resulting Fisher for `w` is exactly `g^2`. -/
theorem ewc_fisher_weighted_average :
    (∀ (model : NamedParams) (batches : List BatchEffect) (name : String) (t : Tensor),
        List.lookup name model = some t →
        (∀ b ∈ batches, ∀ g, b.grad name = some g → g.length = t.length) →
        0 < (GCTaskILEWCTrainer.fisherLoop model batches).total_num_items →
        ∀ j : ℕ, tget (TensorDict.get (GCTaskILEWCTrainer.fisherEstimate model batches) name) j
          = (batches.map (fun b => tget ((b.grad name).getD []) j ^ 2 * (b.numItems : ℚ))).sum
              / ((GCTaskILEWCTrainer.fisherLoop model batches).total_num_items : ℚ)) ∧
    (∀ g : ℚ,
      GCTaskILEWCTrainer.fisherEstimate [("w", [0])]
          [{ pdata := fun _ => [0], grad := fun _ => some [g], numItems := 3 },
           { pdata := fun _ => [0], grad := fun _ => some [g], numItems := 5 }]
        = [("w", [g ^ 2])]) := by
  constructor
  · intro model batches name t hlk hwf _ j
    have e1 : List.lookup name
        ((GCTaskILEWCTrainer.fisherLoop model batches).fishers.map
          (fun nf => (nf.1, nf.2.map
            (fun x => x / ((GCTaskILEWCTrainer.fisherLoop model batches).total_num_items : ℚ)))))
        = (List.lookup name (GCTaskILEWCTrainer.fisherLoop model batches).fishers).map
            (fun v => v.map
              (fun x => x / ((GCTaskILEWCTrainer.fisherLoop model batches).total_num_items : ℚ))) :=
      lookup_map_keyed
        (fun _ (v : Tensor) => v.map
          (fun x => x / ((GCTaskILEWCTrainer.fisherLoop model batches).total_num_items : ℚ)))
        name _
    have e2 : List.lookup name
        (model.map (fun np => (np.1, fisherEvolve np.1 batches (np.2.map (fun _ => 0)))))
        = (List.lookup name model).map
            (fun v => fisherEvolve name batches (v.map (fun _ => 0))) :=
      lookup_map_keyed (fun nm (v : Tensor) => fisherEvolve nm batches (v.map (fun _ => 0))) name _
    have hget : TensorDict.get (GCTaskILEWCTrainer.fisherEstimate model batches) name
        = (fisherEvolve name batches (t.map (fun _ => 0))).map
            (fun x => x / ((GCTaskILEWCTrainer.fisherLoop model batches).total_num_items : ℚ)) := by
      rw [TensorDict.get, GCTaskILEWCTrainer.fisherEstimate, e1, fisherLoop_fishers_eq, e2, hlk]
      rfl
    have hwf0 : ∀ b ∈ batches, ∀ g, b.grad name = some g →
        g.length = (t.map (fun _ => (0 : ℚ))).length := by
      intro b hb g hg
      rw [List.length_map]
      exact hwf b hb g hg
    obtain ⟨_, hval⟩ := fisherEvolve_spec name batches (t.map (fun _ => 0)) hwf0
    rw [hget, tget_map_div, hval j, tget_map_zero, zero_add]
  · intro g
    simp only [GCTaskILEWCTrainer.fisherEstimate, GCTaskILEWCTrainer.fisherLoop,
      GCTaskILEWCTrainer.fisherBatchStep, GCTaskILEWCTrainer.initFisherState,
      GCTaskILEWCTrainer.fisherAcc, List.foldl_cons, List.foldl_nil, List.map_cons,
      List.map_nil, List.zipWith_cons_cons, List.zipWith_nil_right]
    norm_num
    ring

/-- Witness for `ewc_fisher_weighted_average`: the two-batch scenario with
gradient 1 satisfies the hypotheses, and there each Fisher element equals
the weighted average of squared gradients. -/
theorem ewc_fisher_weighted_average_witness :
    tget (TensorDict.get (GCTaskILEWCTrainer.fisherEstimate [("w", [0])]
        ([{ pdata := fun _ => [0], grad := fun _ => some [1], numItems := 3 },
          { pdata := fun _ => [0], grad := fun _ => some [1], numItems := 5 }]
          : List BatchEffect)) "w") 0
      = (([{ pdata := fun _ => [0], grad := fun _ => some [1], numItems := 3 },
           { pdata := fun _ => [0], grad := fun _ => some [1], numItems := 5 }]
           : List BatchEffect).map
            (fun b => tget ((b.grad "w").getD []) 0 ^ 2 * (b.numItems : ℚ))).sum
          / ((GCTaskILEWCTrainer.fisherLoop [("w", [0])]
              ([{ pdata := fun _ => [0], grad := fun _ => some [1], numItems := 3 },
                { pdata := fun _ => [0], grad := fun _ => some [1], numItems := 5 }]
                : List BatchEffect)).total_num_items : ℚ) :=
  ewc_fisher_weighted_average.1 [("w", [0])]
    [{ pdata := fun _ => [0], grad := fun _ => some [1], numItems := 3 },
     { pdata := fun _ => [0], grad := fun _ => some [1], numItems := 5 }] "w" [0]
    (by simp [List.lookup])
    (by rintro b hb g hg
        rcases List.mem_cons.mp hb with rfl | hb2
        · simpa using congrArg List.length (Option.some.inj hg).symm
        · rcases List.mem_cons.mp hb2 with rfl | hb3
          · simpa using congrArg List.length (Option.some.inj hg).symm
          · simp at hb3)
    (by decide) 0

/-- C6: the parameter snapshot stored by `processAfterTraining` equals each
parameter's data after the last batch of the Fisher-estimation pass — the
entry is overwritten on every batch — not an average over batches and not
the value the accumulator held before the pass. -/
theorem ewc_snapshot_is_last_batch_value :
    ∀ (model : NamedParams) (l : List BatchEffect) (b : BatchEffect) (ts : TrainingStates),
      (GCTaskILEWCTrainer.fisherLoop model (l ++ [b])).params
        = model.map (fun np => (np.1, b.pdata np.1)) ∧
      (GCTaskILEWCTrainer.processAfterTraining model (l ++ [b]) ts).params
        = ts.params ++ [model.map (fun np => (np.1, b.pdata np.1))] := by
  intro model l b ts
  have h1 : (GCTaskILEWCTrainer.fisherLoop model (l ++ [b])).params
      = model.map (fun np => (np.1, b.pdata np.1)) := by
    rw [fisherLoop_params_eq]
    refine List.map_congr_left ?_
    intro np _
    simp [List.foldl_append]
  refine ⟨h1, ?_⟩
  show ts.params ++ [(GCTaskILEWCTrainer.fisherLoop model (l ++ [b])).params]
      = ts.params ++ [model.map (fun np => (np.1, b.pdata np.1))]
  rw [h1]

/-- C8: for a task dataset with at least one labeled item, every element of
every Fisher tensor produced by `processAfterTraining` is non-negative, and
a parameter whose gradient is absent after every batch keeps a Fisher value
of exactly zero. -/
theorem ewc_fisher_nonneg_and_absent_grad_zero :
    ∀ (model : NamedParams) (batches : List BatchEffect),
      0 < (GCTaskILEWCTrainer.fisherLoop model batches).total_num_items →
      (∀ nf ∈ GCTaskILEWCTrainer.fisherEstimate model batches, ∀ x ∈ nf.2, 0 ≤ x) ∧
      (∀ nf ∈ GCTaskILEWCTrainer.fisherEstimate model batches,
        (∀ b ∈ batches, b.grad nf.1 = none) → ∀ x ∈ nf.2, x = 0) := by
  intro model batches _
  constructor
  · intro nf hnf x hx
    rw [GCTaskILEWCTrainer.fisherEstimate] at hnf
    obtain ⟨nf0, hnf0, rfl⟩ := List.mem_map.mp hnf
    rw [fisherLoop_fishers_eq] at hnf0
    obtain ⟨np, _, rfl⟩ := List.mem_map.mp hnf0
    dsimp only at hx
    obtain ⟨y, hy, rfl⟩ := List.mem_map.mp hx
    have hy0 : 0 ≤ y :=
      fisherEvolve_nonneg np.1 batches (np.2.map (fun _ => 0)) (by simp) y hy
    exact div_nonneg hy0 (by positivity)
  · intro nf hnf hnone x hx
    rw [GCTaskILEWCTrainer.fisherEstimate] at hnf
    obtain ⟨nf0, hnf0, rfl⟩ := List.mem_map.mp hnf
    rw [fisherLoop_fishers_eq] at hnf0
    obtain ⟨np, _, rfl⟩ := List.mem_map.mp hnf0
    dsimp only at hnone hx
    rw [fisherEvolve_grad_none np.1 batches _ hnone] at hx
    obtain ⟨y, hy, rfl⟩ := List.mem_map.mp hx
    obtain ⟨z, _, rfl⟩ := List.mem_map.mp hy
    simp

/-- Witness for `ewc_fisher_nonneg_and_absent_grad_zero` on a concrete
one-batch dataset with one item. -/
theorem ewc_fisher_nonneg_and_absent_grad_zero_witness :
    (∀ nf ∈ GCTaskILEWCTrainer.fisherEstimate [("w", [2])]
        ([{ pdata := fun _ => [3], grad := fun _ => some [4], numItems := 1 }]
          : List BatchEffect),
      ∀ x ∈ nf.2, 0 ≤ x) ∧
    (∀ nf ∈ GCTaskILEWCTrainer.fisherEstimate [("w", [2])]
        ([{ pdata := fun _ => [3], grad := fun _ => some [4], numItems := 1 }]
          : List BatchEffect),
      (∀ b ∈ ([{ pdata := fun _ => [3], grad := fun _ => some [4], numItems := 1 }]
          : List BatchEffect), b.grad nf.1 = none) → ∀ x ∈ nf.2, x = 0) :=
  ewc_fisher_nonneg_and_absent_grad_zero [("w", [2])]
    [{ pdata := fun _ => [3], grad := fun _ => some [4], numItems := 1 }] (by decide)

end BeGin
